import Mathlib

/-!
Shallow embedding of the `git-projects-scanner` core
(crates/git-projects-core/src/{git_analyzer.rs, scanner.rs, models.rs}).

Strings are modelled as Lean `String` / `List Char`; Rust's iterator-based
string splitting is embedded as structurally recursive functions over
`List Char` so every definition evaluates inside the kernel.  Filesystem
state (used by the scanner) is modelled as a finite list of absolute paths
(segment lists) tagged with a directory flag; the external `gix` discovery
and `walkdir` traversal are modelled by their documented behaviour as used
by the code under analysis.
-/

namespace GitScan

/-- ASCII lowercasing of one character, embedding the effect of Rust's
`str::to_lowercase` on the ASCII inputs this program handles. -/
def lowerChar (c : Char) : Char :=
  if c.toNat ≥ 65 ∧ c.toNat ≤ 90 then Char.ofNat (c.toNat + 32) else c

/-- Lowercase a character list (Rust `url.to_lowercase()`). -/
def lowerList (l : List Char) : List Char := l.map lowerChar

/-- Split a character list at every occurrence of the separator, keeping
empty segments, exactly like Rust's `str::split(char)`: the result is
always non-empty and `"a//b"` splits into `["a", "", "b"]`. -/
def splitOnChar (c : Char) : List Char → List (List Char)
  | [] => [[]]
  | x :: xs =>
    match splitOnChar c xs with
    | [] => [[x]]
    | r :: rs => if x == c then [] :: r :: rs else (x :: r) :: rs

/-- One pass of Rust's `str::trim_end_matches(".git")`, working on the
REVERSED character list (so the suffix test becomes a test on a front
segment): repeatedly drop a leading `"tig."` while present.  The `Nat`
fuel only bounds the repetition and is instantiated with the list length,
which always suffices since each step shortens the list by four. -/
def dropGitRev : Nat → List Char → List Char
  | 0, l => l
  | Nat.succ fuel, l =>
    if ("tig.".toList).isPrefixOf l then dropGitRev fuel (l.drop 4) else l

/-- Rust `url.trim_end_matches(".git")`: remove every trailing `".git"`. -/
def trimGitSuffix (url : List Char) : List Char :=
  (dropGitRev url.length url.reverse).reverse

/-- Substring containment test (Rust `str::contains(&str)`): `pat` occurs
contiguously somewhere in the list. -/
def containsSeg (pat : List Char) : List Char → Bool
  | [] => pat.isEmpty
  | x :: xs => pat.isPrefixOf (x :: xs) || containsSeg pat xs

/-- The fixed service table of `extract_service` in `git_analyzer.rs`
(domain substring, service name), in source order. -/
def knownServices : List (List Char × String) :=
  [("github.com".toList, "github"),
   ("gitlab.com".toList, "gitlab"),
   ("bitbucket.org".toList, "bitbucket"),
   ("codeberg.org".toList, "codeberg"),
   ("sr.ht".toList, "sourcehut")]

/-- `extract_service` (git_analyzer.rs:228): scan the service table in
order and return the first service whose domain occurs as a substring
anywhere in the (already lowercased) URL. -/
def extract_service (url : List Char) : Option String :=
  (knownServices.find? (fun s => containsSeg s.1 url)).map (fun s => s.2)

/-- `extract_account_from_https` (git_analyzer.rs:270): split on `'/'`
and take the fourth part (`parts[3]` when `parts.len() >= 4`). -/
def extract_account_from_https (url : List Char) : Option String :=
  ((splitOnChar '/' url)[3]?).map String.mk

/-- `extract_account_from_ssh` (git_analyzer.rs:285): handles
`ssh://user@host[:port]/account/...` and the shorthand
`user@host:account/...`; every lookup is `Option`-chained like the
Rust `?` operator. -/
def extract_account_from_ssh (url : List Char) : Option String :=
  if ("ssh://".toList).isPrefixOf url then
    match (splitOnChar '@' (url.drop 6))[1]? with
    | none => none
    | some after_at =>
      match (splitOnChar '/' after_at)[1]? with
      | none => none
      | some path => some (String.mk path)
  else
    match (splitOnChar '@' url)[1]? with
    | none => none
    | some after_at =>
      match (splitOnChar ':' after_at)[1]? with
      | none => none
      | some after_colon =>
        match (splitOnChar '/' after_colon)[0]? with
        | none => none
        | some account => some (String.mk account)

/-- `extract_account` (git_analyzer.rs:252): strip trailing `".git"`,
then dispatch on the URL form (http/https, then anything containing
an `'@'`, otherwise no account). -/
def extract_account (url : List Char) : Option String :=
  let u := trimGitSuffix url
  if ("http://".toList).isPrefixOf u || ("https://".toList).isPrefixOf u then
    extract_account_from_https u
  else if u.contains '@' then
    extract_account_from_ssh u
  else
    none

/-- `parse_git_url` (git_analyzer.rs:208): service from the lowercased
URL, account from the original URL. -/
def parse_git_url (url : String) : Option String × Option String :=
  (extract_service (lowerList url.toList), extract_account url.toList)

/-! ## Config resolution (`extract_git_config`, git_analyzer.rs:117-177)

The `gix` configuration snapshot is the merged view of the local, global
and system configuration files.  We model it as a finite association list
from keys to values, where each entry additionally carries the scope of
the file it originated from: the origin is *not* consulted by the code
under analysis (which only calls `config.string(key)` on the merged
view), but carrying it makes properties about "a value that is only
present at global level" statable. -/

/-- `ConfigScope` (models.rs): the configuration level. -/
inductive ConfigScope where
  | Local : ConfigScope
  | Global : ConfigScope
  | System : ConfigScope
deriving DecidableEq

/-- One entry of the merged configuration view, tagged with the level of
the file that supplied it. -/
structure ConfigEntry where
  key : String
  value : String
  origin : ConfigScope
deriving DecidableEq

/-- The merged-view lookup `config.string(key)` of the gix snapshot:
first matching entry's value, origin ignored. -/
def snapshotString (cfg : List ConfigEntry) (key : String) : Option String :=
  (cfg.find? (fun e => e.key == key)).map (fun e => e.value)

/-- `GitConfig` (models.rs): resolved identity configuration. -/
structure GitConfig where
  user_name : Option String
  user_email : Option String
  scope : ConfigScope
deriving DecidableEq

/-- `get_config_value_with_scope` (git_analyzer.rs:144): read the merged
view; any found value is reported with scope `Local` (the code's
explicitly simplified heuristic), otherwise `(None, None)`. -/
def get_config_value_with_scope (cfg : List ConfigEntry) (key : String) :
    Option String × Option ConfigScope :=
  match snapshotString cfg key with
  | some v => (some v, some ConfigScope.Local)
  | none => (none, none)

/-- `determine_config_scope` (git_analyzer.rs:171): prefer the more
specific scope, defaulting to `System`. -/
def determine_config_scope : Option ConfigScope → Option ConfigScope → ConfigScope
  | some ConfigScope.Local, _ => ConfigScope.Local
  | _, some ConfigScope.Local => ConfigScope.Local
  | some ConfigScope.Global, _ => ConfigScope.Global
  | _, some ConfigScope.Global => ConfigScope.Global
  | _, _ => ConfigScope.System

/-- `extract_git_config` (git_analyzer.rs:117), applied to an
already-opened repository's configuration snapshot. -/
def extract_git_config (cfg : List ConfigEntry) : GitConfig :=
  let n := get_config_value_with_scope cfg "user.name"
  let e := get_config_value_with_scope cfg "user.email"
  { user_name := n.1
    user_email := e.1
    scope := determine_config_scope n.2 e.2 }

/-! ## Filesystem model and the scanner (scanner.rs)

The filesystem is a finite list of entries; an entry is an absolute path
(list of name segments) plus a directory flag.  Symlinks are not
modelled: in this model `entry.path_is_symlink()` is always false, so
the `follow_symlinks` setting has no observable effect.  The external
crates are modelled by the behaviour the scanner relies on:

* `walkdir`: depth-first pre-order traversal yielding every entry
  including the root (depth 0), descending only into directories and
  only while `max_depth` is not exhausted;
* `gix::discover(p)`: walk from `p` upwards and return the first
  directory `d` (nearest ancestor-or-self) that has a child named
  `.git`; the discovered repository then has working-tree root `d` and
  git-path `d/.git`, which is a file exactly for submodules/worktrees
  (spec section 4.1; non-bare repositories only).

Metadata analysis (`analyze_repository`, scanner.rs:112-164) is
infallible: every fallible sub-operation inside it is swallowed
(`unwrap_or`, `if let Ok`, `.ok()`) and the body ends in an
unconditional `Ok(...)`.  The model keeps the `Result`-shaped return
type (`Except`), so the caller's `Err` match arm exists but is dead
code, exactly as in the source. -/

/-- A path: list of name segments from the filesystem root. -/
abbrev FsPath := List String

/-- One filesystem entry: its absolute path and whether it is a
directory (non-directories are plain files). -/
structure FsEntry where
  path : FsPath
  isDir : Bool
deriving DecidableEq

/-- Look up the entry at a path (real filesystems have at most one). -/
def findEntry (fs : List FsEntry) (p : FsPath) : Option FsEntry :=
  fs.find? (fun e => e.path == p)

/-- Rust `path.exists()` in the model. -/
def pathExists (fs : List FsEntry) (p : FsPath) : Bool :=
  (findEntry fs p).isSome

/-- Rust `path.is_dir()` in the model. -/
def pathIsDir (fs : List FsEntry) (p : FsPath) : Bool :=
  match findEntry fs p with
  | some e => e.isDir
  | none => false

/-- Rust `path.is_file()` in the model. -/
def pathIsFile (fs : List FsEntry) (p : FsPath) : Bool :=
  match findEntry fs p with
  | some e => !e.isDir
  | none => false

/-- The prefixes of `p`, longest (that is, `p` itself) first: the
candidate directories `gix::discover` inspects walking upward. -/
def selfAndAncestors (p : FsPath) : List FsPath :=
  ((List.range (p.length + 1)).reverse).map (fun k => p.take k)

/-- Model of `gix::discover(p)`: the nearest ancestor-or-self directory
with a `.git` child; returns its path (the working-tree root) together
with whether that `.git` child is a file (submodule/worktree) rather
than a directory. -/
def discover (fs : List FsEntry) (p : FsPath) : Option (FsPath × Bool) :=
  ((selfAndAncestors p).find? (fun d => pathExists fs (d ++ [".git"]))).map
    (fun d => (d, pathIsFile fs (d ++ [".git"])))

/-- The entries that are direct children of `p`, in filesystem order. -/
def childEntries (fs : List FsEntry) (p : FsPath) : List FsEntry :=
  fs.filter (fun e => !e.path.isEmpty && e.path.dropLast == p)

/-- Decrement an optional depth budget (`walkdir`'s `max_depth`);
`none` means unlimited. -/
def decDepth : Option Nat → Option Nat
  | none => none
  | some d => some (d - 1)

/-- Model of the `walkdir` traversal: depth-first, pre-order, the root
itself first (depth 0), descending only into directories while depth
budget remains.  The fuel argument only bounds the recursion and is
instantiated below with a bound that any chain of strictly lengthening
paths drawn from `fs` satisfies. -/
def walkAux (fs : List FsEntry) : Nat → FsPath → Bool → Option Nat → List FsPath
  | 0, p, _, _ => [p]
  | Nat.succ fuel, p, isDir, depth =>
    p :: (if isDir && !(depth == some 0) then
            (childEntries fs p).flatMap
              (fun e => walkAux fs fuel e.path e.isDir (decDepth depth))
          else [])

/-- A fuel bound sufficient for every traversal over `fs`. -/
def walkFuel (fs : List FsEntry) : Nat :=
  (fs.map (fun e => e.path.length)).sum + fs.length + 1

/-- All paths yielded by walking one root. -/
def walkList (fs : List FsEntry) (root : FsPath) (max_depth : Option Nat) :
    List FsPath :=
  walkAux fs (walkFuel fs) root (pathIsDir fs root) max_depth

/-- `ScanConfig` (models.rs): scan parameters. -/
structure ScanConfig where
  root_paths : List FsPath
  max_depth : Option Nat
  follow_symlinks : Bool
  include_submodules : Bool
deriving DecidableEq

/-- `GitProject` (models.rs), restricted to the fields the scanner
itself computes from the filesystem; remotes, config and the scan
timestamp are orthogonal metadata filled from the git environment. -/
structure GitProject where
  name : String
  path : FsPath
  is_submodule : Bool
  has_submodules : Bool
deriving DecidableEq

/-- Scan errors of `scan_root` (error.rs constructors used there). -/
inductive ScanError where
  | path_not_found : ScanError
  | not_a_directory : ScanError
deriving DecidableEq

/-- `analyze_repository` (scanner.rs:112): build the project record for
the repository whose working tree is `p`.  The source returns a
`Result` but every fallible sub-operation is swallowed and the body
ends in an unconditional `Ok`, so the model always returns `Except.ok`.
`name` is the final path component with the `"unknown"` fallback;
`is_submodule` re-checks whether the git path is a file;
`has_submodules` checks for a `.gitmodules` child. -/
def analyze_repository (fs : List FsEntry) (p : FsPath) : Except Unit GitProject :=
  Except.ok
    { name := p.getLast?.getD "unknown"
      path := p
      is_submodule := pathIsFile fs (p ++ [".git"])
      has_submodules := pathExists fs (p ++ [".gitmodules"]) }

/-- `is_inside_known_repo` (scanner.rs:277): `p` is a strict descendant
of some already-confirmed repository path. -/
def is_inside_known_repo (p : FsPath) (known : List FsPath) : Bool :=
  known.any (fun r => !(p == r) && r.isPrefixOf p)

/-- The mutable state of one `scan_root` call: the confirmed repository
paths and the accumulated projects. -/
structure ScanState where
  visited : List FsPath
  projects : List GitProject
deriving DecidableEq

/-- The body of the walker loop in `scan_root` (scanner.rs:195-267) for
one yielded path: skip paths inside known repositories, try discovery,
keep only exact repository roots, apply the submodule inclusion gate,
analyse, and record the path and the project.  The `Except.error` arm
mirrors scanner.rs:257 and is dead code, since `analyze_repository`
always returns `Ok`. -/
def scan_step (fs : List FsEntry) (config : ScanConfig) (st : ScanState)
    (p : FsPath) : ScanState :=
  if is_inside_known_repo p st.visited then st
  else
    match discover fs p with
    | none => st
    | some (work_dir, gitIsFile) =>
      if work_dir == p then
        let is_submodule := gitIsFile
        let should_include :=
          if is_submodule then config.include_submodules else true
        if should_include then
          match analyze_repository fs p with
          | Except.ok project =>
            { visited := p :: st.visited
              projects := st.projects ++ [project] }
          | Except.error _ => st
        else st
      else st

/-- `scan_root` (scanner.rs:169): validate the root, then fold the
walker loop over the traversal with empty initial state. -/
def scan_root (fs : List FsEntry) (config : ScanConfig) (root : FsPath) :
    Except ScanError (List GitProject) :=
  if !(pathExists fs root) then Except.error ScanError.path_not_found
  else if !(pathIsDir fs root) then Except.error ScanError.not_a_directory
  else
    Except.ok
      (((walkList fs root config.max_depth).foldl (scan_step fs config)
          ⟨[], []⟩).projects)

/-- The projects one root contributes to the whole scan: its results on
success, nothing when the root-level scan failed. -/
def scan_root_list (fs : List FsEntry) (config : ScanConfig) (root : FsPath) :
    List GitProject :=
  match scan_root fs config root with
  | Except.ok ps => ps
  | Except.error _ => []

/-- `DefaultScanner::scan` (scanner.rs:294): fold over the configured
roots, appending each successful root's projects and skipping failed
roots; the aggregate call always returns `Ok`. -/
def scan (fs : List FsEntry) (config : ScanConfig) :
    Except ScanError (List GitProject) :=
  Except.ok
    (config.root_paths.foldl
      (fun acc root =>
        match scan_root fs config root with
        | Except.ok ps => acc ++ ps
        | Except.error _ => acc)
      [])

/-- The project list of the (never-failing) aggregate scan. -/
def scanList (fs : List FsEntry) (config : ScanConfig) : List GitProject :=
  match scan fs config with
  | Except.ok ps => ps
  | Except.error _ => []

/-- Concrete fixture: a root `r` containing a regular repository `r/a`
which itself contains a nested regular repository `r/a/b`. -/
def nestedFs : List FsEntry :=
  [⟨["r"], true⟩, ⟨["r", "a"], true⟩, ⟨["r", "a", ".git"], true⟩,
   ⟨["r", "a", "b"], true⟩, ⟨["r", "a", "b", ".git"], true⟩]

/-- Concrete fixture: a root `r` containing a submodule `r/m` (its
`.git` is a file) and a regular repository `r/c`. -/
def submoduleFs : List FsEntry :=
  [⟨["r"], true⟩, ⟨["r", "m"], true⟩, ⟨["r", "m", ".git"], false⟩,
   ⟨["r", "c"], true⟩, ⟨["r", "c", ".git"], true⟩]

/-! ## Helper lemmas about the URL parser -/

theorem dropGitRev_suffix (fuel : Nat) (l : List Char) : dropGitRev fuel l <:+ l := by
  induction fuel generalizing l with
  | zero => exact List.suffix_refl l
  | succ fuel ih =>
    rw [dropGitRev]
    split
    · exact (ih (l.drop 4)).trans (List.drop_suffix 4 l)
    · exact List.suffix_refl l

theorem trimGitSuffix_isPrefix (l : List Char) : trimGitSuffix l <+: l := by
  have h2 : (dropGitRev l.length l.reverse).reverse <+: l.reverse.reverse :=
    List.reverse_prefix.mpr (dropGitRev_suffix l.length l.reverse)
  simpa [trimGitSuffix] using h2

theorem extract_service_eq_none_iff (url : List Char) :
    extract_service url = none ↔
      ∀ s ∈ knownServices, containsSeg s.1 url = false := by
  simp [extract_service, List.find?_eq_none]

theorem contains_eq_false_of_not_mem {l : List Char} {c : Char} (h : c ∉ l) :
    l.contains c = false := by
  cases hb : l.contains c
  · rfl
  · exact absurd (by simpa using hb) h

theorem extract_account_eq_none (url : List Char)
    (h1 : ¬ ("http://".toList <+: url))
    (h2 : ¬ ("https://".toList <+: url))
    (h3 : ('@' : Char) ∉ url) :
    extract_account url = none := by
  have hp := trimGitSuffix_isPrefix url
  have hA : ¬ ("http://".toList <+: trimGitSuffix url) := fun h => h1 (h.trans hp)
  have hB : ¬ ("https://".toList <+: trimGitSuffix url) := fun h => h2 (h.trans hp)
  have hC : ('@' : Char) ∉ trimGitSuffix url := fun hm => h3 (hp.sublist.subset hm)
  simp [extract_account, hA, hB, hC]
  intro h
  rcases h with h | h
  · exact absurd h hA
  · exact absurd h hB

/-! ## Claim theorems: URL parsing -/

/-- C4: `parse_git_url` returns exactly the six specified `(service,
account)` outputs on the six specified example URLs. -/
theorem parse_git_url_six_examples :
    parse_git_url "https://github.com/torvalds/linux.git"
        = (some "github", some "torvalds") ∧
    parse_git_url "git@gitlab.com:org/project.git"
        = (some "gitlab", some "org") ∧
    parse_git_url "ssh://git@gitlab.com/gitlab-org/gitlab.git"
        = (some "gitlab", some "gitlab-org") ∧
    parse_git_url "https://git.example.com/user/repo.git"
        = (none, some "user") ∧
    parse_git_url "not-a-url" = (none, none) ∧
    parse_git_url "file:///path/to/repo.git" = (none, none) := by
  refine ⟨?_, ?_, ?_, ?_, ?_, ?_⟩ <;> decide

/-- C6: account extraction reproduces both edge cases: the literal `~`
of a sourcehut-style first path segment is preserved verbatim, and an
explicit port in the SSH URI form is skipped when locating the account
segment. -/
theorem extract_account_edge_cases :
    (parse_git_url "https://git.sr.ht/~user/repo").2 = some "~user" ∧
    (parse_git_url "ssh://git@github.com:22/user/repo.git").2 = some "user" := by
  refine ⟨?_, ?_⟩ <;> decide

/-- C10: an HTTP/HTTPS URL whose first path segment is empty yields the
empty-string account (`"https://github.com/"` splits into four parts,
the fourth empty), not `None`; a URL with fewer than four
slash-separated parts (after `.git`-stripping) yields no account. -/
theorem extract_account_from_https_empty_segment :
    (parse_git_url "https://github.com/").2 = some "" ∧
    (parse_git_url "https://github.com").2 = none ∧
    ∀ url : List Char, (splitOnChar '/' url).length < 4 →
      extract_account_from_https url = none := by
  refine ⟨by decide, by decide, ?_⟩
  intro url h
  have : (splitOnChar '/' url)[3]? = none := List.getElem?_eq_none (by omega)
  simp [extract_account_from_https, this]

/-- C10 witness: the general short-URL clause applied to the concrete
split of `"https://github.com"`. -/
theorem extract_account_from_https_empty_segment_witness :
    extract_account_from_https ("https://github.com".toList) = none :=
  extract_account_from_https_empty_segment.2.2 ("https://github.com".toList)
    (by decide)

/-- C5 (counterexample): service identification is by substring
containment over the whole URL, not by host.  Here the host (the third
slash-separated part) is `example.com`, which is none of the five known
domains, yet the service is `github` because `github.com` occurs in the
path. -/
theorem extract_service_unknown_host_counterexample :
    ((splitOnChar '/' ("https://example.com/github.com/repo".toList))[2]?).map
        String.mk = some "example.com" ∧
    (knownServices.all (fun s => !(s.1 == "example.com".toList))) = true ∧
    (parse_git_url "https://example.com/github.com/repo").1 = some "github" := by
  refine ⟨by decide, by decide, by decide⟩

/-- C5 (amended): the service is `None` exactly when no known hosting
domain occurs as a substring anywhere in the lowercased URL; an account
can still be extracted when the service is absent. -/
theorem extract_service_substring_semantics :
    (∀ url : String,
      (parse_git_url url).1 = none ↔
        ∀ s ∈ knownServices, containsSeg s.1 (lowerList url.toList) = false) ∧
    (parse_git_url "https://git.example.com/user/repo.git").1 = none ∧
    (parse_git_url "https://git.example.com/user/repo.git").2 = some "user" := by
  refine ⟨?_, by decide, by decide⟩
  intro url
  simpa [parse_git_url] using extract_service_eq_none_iff (lowerList url.toList)

/-- C5 witness: the amended equivalence instantiated at a URL with no
known domain substring. -/
theorem extract_service_substring_semantics_witness :
    (parse_git_url "ftp://nowhere.example/user/repo").1 = none :=
  (extract_service_substring_semantics.1 "ftp://nowhere.example/user/repo").mpr
    (by decide)

/-- C7: `parse_git_url` is a total function (by construction in the
model: every index and split access is `Option`-chained), and on an
input matching none of the recognized forms — no known domain substring,
no `http://`/`https://` scheme, no `@` — it returns `(None, None)`. -/
theorem parse_git_url_unrecognized (url : String)
    (hs : ∀ s ∈ knownServices, containsSeg s.1 (lowerList url.toList) = false)
    (h1 : ¬ ("http://".toList <+: url.toList))
    (h2 : ¬ ("https://".toList <+: url.toList))
    (h3 : ('@' : Char) ∉ url.toList) :
    parse_git_url url = (none, none) := by
  have hserv : extract_service (lowerList url.toList) = none :=
    (extract_service_eq_none_iff (lowerList url.toList)).mpr hs
  have hacc : extract_account url.toList = none :=
    extract_account_eq_none url.toList h1 h2 h3
  simp only [parse_git_url]
  rw [hserv, hacc]

/-- C7 witness: the unrecognized-input theorem applied to the concrete
URL `file:///path/to/repo.git`. -/
theorem parse_git_url_unrecognized_witness :
    parse_git_url "file:///path/to/repo.git" = (none, none) :=
  parse_git_url_unrecognized "file:///path/to/repo.git"
    (by decide) (by decide) (by decide) (by decide)

/-! ## Claim theorems: config scope resolution -/

/-- C1 (counterexample): a configuration whose only visible value
(user.name) originates at the global level is reported with scope
`Local`, not `Global` — the code treats every value found in the merged
view as `Local`. -/
theorem extract_git_config_global_counterexample :
    extract_git_config [⟨"user.name", "alice", ConfigScope.Global⟩]
        = ⟨some "alice", none, ConfigScope.Local⟩ ∧
    ConfigScope.Local ≠ ConfigScope.Global := by
  refine ⟨by decide, by decide⟩

/-- C1 (amended): whenever either key yields a value in the merged view
— regardless of the level the value originated from — the reported
scope is `Local`; when neither key yields a value the scope defaults to
`System`. -/
theorem extract_git_config_scope_resolution (cfg : List ConfigEntry) :
    (snapshotString cfg "user.name" = none →
      snapshotString cfg "user.email" = none →
      (extract_git_config cfg).scope = ConfigScope.System) ∧
    (∀ v, snapshotString cfg "user.name" = some v →
      (extract_git_config cfg).scope = ConfigScope.Local) ∧
    (∀ v, snapshotString cfg "user.email" = some v →
      (extract_git_config cfg).scope = ConfigScope.Local) := by
  refine ⟨?_, ?_, ?_⟩
  · intro hn he
    simp [extract_git_config, get_config_value_with_scope, hn, he,
      determine_config_scope]
  · intro v hn
    rcases he : snapshotString cfg "user.email" with _ | w <;>
      simp [extract_git_config, get_config_value_with_scope, hn, he,
        determine_config_scope]
  · intro v he
    rcases hn : snapshotString cfg "user.name" with _ | w <;>
      simp [extract_git_config, get_config_value_with_scope, hn, he,
        determine_config_scope]

/-- C1 witness: the amended scope-resolution theorem applied to the
empty configuration (scope `System`). -/
theorem extract_git_config_scope_resolution_witness :
    (extract_git_config []).scope = ConfigScope.System :=
  (extract_git_config_scope_resolution []).1 rfl rfl

/-! ## Helper lemmas about the scanner -/

theorem discover_snd_eq {fs : List FsEntry} {p wd : FsPath} {b : Bool}
    (h : discover fs p = some (wd, b)) :
    b = pathIsFile fs (wd ++ [".git"]) := by
  unfold discover at h
  cases hf : (selfAndAncestors p).find? (fun d => pathExists fs (d ++ [".git"])) with
  | none => rw [hf] at h; exact absurd h (by simp)
  | some d =>
    rw [hf] at h
    simp at h
    obtain ⟨h1, h2⟩ := h
    subst h1
    exact h2.symm

theorem not_inside_of_known {p : FsPath} {known : List FsPath}
    (h : is_inside_known_repo p known = false) :
    ∀ r ∈ known, r <+: p → p = r := by
  intro r hr hpre
  unfold is_inside_known_repo at h
  rw [List.any_eq_false] at h
  have hrp := h r hr
  simp only [Bool.and_eq_true, Bool.not_eq_eq_eq_not, Bool.not_true, beq_eq_false_iff_ne,
    List.isPrefixOf_iff_prefix, not_and] at hrp
  by_contra hne
  exact hrp hne hpre

/-- Metadata analysis never fails: the body of `analyze_repository`
ends in an unconditional `Ok`, so the record it produces (with the
repository's own path) always comes back. -/
theorem analyze_repository_ok (fs : List FsEntry) (p : FsPath) :
    ∃ q, analyze_repository fs p = Except.ok q ∧ q.path = p ∧
      q.is_submodule = pathIsFile fs (p ++ [".git"]) :=
  ⟨_, rfl, rfl, rfl⟩

/-- Full case analysis of one iteration of the walker loop: either the
state is unchanged, or the current path was confirmed as a repository
root, passed the submodule gate, and both the visited set and the
project list grew by exactly that path. -/
theorem scan_step_eq (fs : List FsEntry) (config : ScanConfig) (st : ScanState)
    (p : FsPath) :
    scan_step fs config st p = st ∨
    (is_inside_known_repo p st.visited = false ∧
     discover fs p = some (p, pathIsFile fs (p ++ [".git"])) ∧
     (pathIsFile fs (p ++ [".git"]) = true → config.include_submodules = true) ∧
     ∃ q, analyze_repository fs p = Except.ok q ∧ q.path = p ∧
       q.is_submodule = pathIsFile fs (p ++ [".git"]) ∧
       scan_step fs config st p = ⟨p :: st.visited, st.projects ++ [q]⟩) := by
  by_cases hin : is_inside_known_repo p st.visited = true
  · left; unfold scan_step; rw [if_pos hin]
  · have hin2 : is_inside_known_repo p st.visited = false := by simpa using hin
    cases hd : discover fs p with
    | none => left; unfold scan_step; rw [if_neg hin, hd]
    | some pr =>
      obtain ⟨wd, b⟩ := pr
      have hb : b = pathIsFile fs (wd ++ [".git"]) := discover_snd_eq hd
      by_cases hwp : wd = p
      · subst hwp
        by_cases hsi : (if b then config.include_submodules else true) = true
        · right
          refine ⟨hin2, by rw [hb], ?_, ?_⟩
          · intro hgit
            rw [hb, hgit] at hsi
            simpa using hsi
          · refine ⟨_, rfl, rfl, rfl, ?_⟩
            unfold scan_step
            rw [if_neg hin, hd]
            dsimp only
            rw [if_pos (by simp : (wd == wd) = true), if_pos hsi]
            rfl
        · left
          unfold scan_step
          rw [if_neg hin, hd]
          dsimp only
          rw [if_pos (by simp : (wd == wd) = true), if_neg hsi]
      · left
        unfold scan_step
        rw [if_neg hin, hd]
        dsimp only
        rw [if_neg (by simpa using hwp)]

/-- Any property of the scan state preserved by one loop iteration is
preserved by the whole walker fold. -/
theorem foldl_scan_inv (fs : List FsEntry) (config : ScanConfig)
    (P : ScanState → Prop)
    (hstep : ∀ st p, P st → P (scan_step fs config st p)) :
    ∀ (l : List FsPath) (st : ScanState), P st → P (l.foldl (scan_step fs config) st)
  | [], _, h => h
  | p :: l, st, h =>
    foldl_scan_inv fs config P hstep l (scan_step fs config st p) (hstep st p h)

/-- The root-aggregation fold of `DefaultScanner::scan` equals the
concatenation of the per-root contributions. -/
theorem scan_foldl_eq_flatMap (fs : List FsEntry) (config : ScanConfig) :
    ∀ (roots : List FsPath) (acc : List GitProject),
      roots.foldl
        (fun acc root =>
          match scan_root fs config root with
          | Except.ok ps => acc ++ ps
          | Except.error _ => acc)
        acc
      = acc ++ roots.flatMap (scan_root_list fs config) := by
  intro roots
  induction roots with
  | nil => intro acc; simp
  | cons r roots ih =>
    intro acc
    rw [List.foldl_cons, ih, List.flatMap_cons]
    have hr : (match scan_root fs config r with
               | Except.ok ps => acc ++ ps
               | Except.error _ => acc)
        = acc ++ scan_root_list fs config r := by
      unfold scan_root_list
      cases scan_root fs config r <;> simp
    rw [hr, List.append_assoc]

/-- The aggregate result is the flat concatenation of the per-root
result lists. -/
theorem scanList_eq_flatMap (fs : List FsEntry) (config : ScanConfig) :
    scanList fs config = config.root_paths.flatMap (scan_root_list fs config) := by
  unfold scanList scan
  exact scan_foldl_eq_flatMap fs config config.root_paths []

/-! ## Claim theorems: scanner -/

/-- C9: per-root error isolation.  The aggregate scan always returns
`Ok` of the concatenated per-root contributions, and a root that does
not exist or is not a directory makes its own `scan_root` fail with a
root-level error while contributing the empty list — so every other
root's discoveries are unaffected. -/
theorem scan_per_root_isolation (fs : List FsEntry) (config : ScanConfig) :
    scan fs config
      = Except.ok (config.root_paths.flatMap (scan_root_list fs config)) ∧
    ∀ root, pathExists fs root = false ∨ pathIsDir fs root = false →
      (∃ e, scan_root fs config root = Except.error e) ∧
      scan_root_list fs config root = [] := by
  constructor
  · unfold scan
    rw [scan_foldl_eq_flatMap fs config config.root_paths []]
    rfl
  · intro root hroot
    have herr : ∃ e, scan_root fs config root = Except.error e := by
      unfold scan_root
      cases hex : pathExists fs root with
      | false => exact ⟨ScanError.path_not_found, by rw [if_pos (by simp)]⟩
      | true =>
        rcases hroot with h | h
        · rw [h] at hex; exact absurd hex (by simp)
        · refine ⟨ScanError.not_a_directory, ?_⟩
          rw [if_neg (by simp), if_pos (by simp [h])]
    obtain ⟨e, he⟩ := herr
    exact ⟨⟨e, he⟩, by unfold scan_root_list; rw [he]⟩

/-- C9 witness: the isolation theorem applied to a concrete scan whose
first root does not exist; the valid sibling root `r` still yields the
repository `r/a`. -/
theorem scan_per_root_isolation_witness :
    (∃ e, scan_root nestedFs ⟨[["nope"], ["r"]], none, false, true⟩ ["nope"]
        = Except.error e) ∧
    scan_root_list nestedFs ⟨[["nope"], ["r"]], none, false, true⟩ ["nope"]
        = [] :=
  (scan_per_root_isolation nestedFs ⟨[["nope"], ["r"]], none, false, true⟩).2
    ["nope"] (Or.inl (by decide))

/-- C8: with `include_submodules = false` the aggregate scan result
contains no submodule records, and the walker's inclusion gate and the
extraction-time `is_submodule` field agree (both are the
file-vs-directory status of the discovered `.git` path). -/
theorem scan_excludes_submodules (fs : List FsEntry) (config : ScanConfig)
    (h : config.include_submodules = false) :
    (∀ q ∈ scanList fs config, q.is_submodule = false) ∧
    (∀ (fs₂ : List FsEntry) (p wd : FsPath) (b : Bool),
      discover fs₂ p = some (wd, b) → b = pathIsFile fs₂ (wd ++ [".git"])) := by
  constructor
  · intro q hq
    rw [scanList_eq_flatMap, List.mem_flatMap] at hq
    obtain ⟨root, _, hq⟩ := hq
    revert hq
    unfold scan_root_list scan_root
    by_cases h1 : pathExists fs root = true
    · rw [if_neg (by simp [h1])]
      by_cases h2 : pathIsDir fs root = true
      · rw [if_neg (by simp [h2])]
        intro hq
        have key := foldl_scan_inv fs config
          (fun st => ∀ q ∈ st.projects, q.is_submodule = false)
          (by
            intro st p hP
            rcases scan_step_eq fs config st p with heq | ⟨_, _, hgate, q₀, _, _, hsub, heq⟩
            · rw [heq]; exact hP
            · rw [heq]
              intro q hq
              rcases List.mem_append.mp hq with hmem | hmem
              · exact hP q hmem
              · have hq0 : q = q₀ := by simpa using hmem
                subst hq0
                cases hfile : pathIsFile fs (p ++ [".git"]) with
                | false => rw [hsub, hfile]
                | true => rw [hgate hfile] at h; exact absurd h (by simp))
          (walkList fs root config.max_depth) ⟨[], []⟩ (by intro q hq; simp at hq)
        exact key q hq
      · rw [if_pos (by simpa using h2)]
        intro hq
        exact absurd hq (by simp)
    · rw [if_pos (by simpa using h1)]
      intro hq
      exact absurd hq (by simp)
  · intro fs₂ p wd b hd
    exact discover_snd_eq hd

/-- C3: metadata analysis is infallible (first conjunct), so the
claim's "R's analysis fails and R is omitted" case never arises: every
confirmed non-submodule repository is analysed successfully, included,
and recorded in the visited set, after which every strictly descendant
candidate visited later in the same traversal is skipped before it is
even checked.  Observably (second conjunct): within one root's result
no project reported after a non-submodule repository R has a path that
is a strict descendant of R's path. -/
theorem scan_root_no_nested (fs : List FsEntry) (config : ScanConfig)
    (root : FsPath) :
    (∀ p, ∃ q, analyze_repository fs p = Except.ok q) ∧
    (scan_root_list fs config root).Pairwise
      (fun a b => a.is_submodule = false →
        ¬(a.path <+: b.path ∧ a.path ≠ b.path)) := by
  constructor
  · intro p
    exact ⟨_, rfl⟩
  · unfold scan_root_list scan_root
    by_cases h1 : pathExists fs root = true
    · rw [if_neg (by simp [h1])]
      by_cases h2 : pathIsDir fs root = true
      · rw [if_neg (by simp [h2])]
        have key := foldl_scan_inv fs config
          (fun st =>
            st.projects.Pairwise
              (fun a b => a.is_submodule = false →
                ¬(a.path <+: b.path ∧ a.path ≠ b.path)) ∧
            ∀ q ∈ st.projects, q.path ∈ st.visited)
          (by
            intro st p hP
            rcases scan_step_eq fs config st p with heq |
              ⟨hin, _, _, q₀, _, hq0path, _, heq⟩
            · rw [heq]; exact hP
            · rw [heq]
              constructor
              · rw [List.pairwise_append]
                refine ⟨hP.1, by simp, ?_⟩
                intro a ha b hb
                have hb2 : b = q₀ := by simpa using hb
                subst hb2
                intro _ hcon
                have hmem : a.path ∈ st.visited := hP.2 a ha
                have hpr : p = a.path :=
                  not_inside_of_known hin a.path hmem (hq0path ▸ hcon.1)
                apply hcon.2
                rw [hq0path]
                exact hpr.symm
              · intro q hq
                rcases List.mem_append.mp hq with hm | hm
                · exact List.mem_cons_of_mem _ (hP.2 q hm)
                · have hq2 : q = q₀ := by simpa using hm
                  subst hq2
                  rw [hq0path]
                  exact List.mem_cons_self p st.visited)
          (walkList fs root config.max_depth) ⟨[], []⟩ (by simp)
        exact key.1
      · rw [if_pos (by simpa using h2)]
        simp
    · rw [if_pos (by simpa using h1)]
      simp

/-- C3 witness: the no-nesting theorem instantiated at the
nested-repository fixture (where the result is the single outer
repository `r/a`, its nested repository `r/a/b` being skipped). -/
theorem scan_root_no_nested_witness :
    (scan_root_list nestedFs ⟨[["r"]], none, false, true⟩ ["r"]).Pairwise
      (fun a b => a.is_submodule = false →
        ¬(a.path <+: b.path ∧ a.path ≠ b.path)) :=
  (scan_root_no_nested nestedFs ⟨[["r"]], none, false, true⟩ ["r"]).2

/-- C8 witness: the exclusion theorem applied to the submodule fixture
with `include_submodules = false`; the only discovered project is the
regular repository `r/c`. -/
theorem scan_excludes_submodules_witness :
    (⟨"c", ["r", "c"], false, false⟩ : GitProject).is_submodule = false :=
  (scan_excludes_submodules submoduleFs ⟨[["r"]], none, false, false⟩ rfl).1
    ⟨"c", ["r", "c"], false, false⟩ (by decide)

/-! ## Walk-traversal uniqueness (for the within-root deduplication) -/

theorem childEntries_path_eq {fs : List FsEntry} {p : FsPath} {e : FsEntry}
    (h : e ∈ childEntries fs p) : ∃ n, e.path = p ++ [n] := by
  unfold childEntries at h
  rw [List.mem_filter] at h
  have h2 := h.2
  rw [Bool.and_eq_true] at h2
  have hne : e.path ≠ [] := by
    have := h2.1
    simp only [Bool.not_eq_eq_eq_not, Bool.not_true, List.isEmpty_eq_false] at this
    exact this
  have hdp : e.path.dropLast = p := by
    have := h2.2
    rwa [beq_iff_eq] at this
  exact ⟨e.path.getLast hne, by rw [← hdp, List.dropLast_append_getLast hne]⟩

theorem mem_walkAux_isPrefix (fs : List FsEntry) :
    ∀ (fuel : Nat) (p : FsPath) (b : Bool) (d : Option Nat) (q : FsPath),
      q ∈ walkAux fs fuel p b d → p <+: q := by
  intro fuel
  induction fuel with
  | zero =>
    intro p b d q hq
    rw [walkAux] at hq
    have : q = p := by simpa using hq
    exact this ▸ List.prefix_refl q
  | succ fuel ih =>
    intro p b d q hq
    rw [walkAux] at hq
    rcases List.mem_cons.mp hq with hq | hq
    · exact hq ▸ List.prefix_refl q
    · by_cases hc : (b && !(d == some 0)) = true
      · rw [if_pos hc, List.mem_flatMap] at hq
        obtain ⟨e, he, hq⟩ := hq
        obtain ⟨n, hn⟩ := childEntries_path_eq he
        have h1 : e.path <+: q := ih e.path e.isDir (decDepth d) q hq
        have h2 : p <+: e.path := hn ▸ List.prefix_append p [n]
        exact h2.trans h1
      · rw [if_neg hc] at hq
        exact absurd hq (by simp)

theorem walkAux_nodup {fs : List FsEntry}
    (hfs : (fs.map (fun e => e.path)).Nodup) :
    ∀ (fuel : Nat) (p : FsPath) (b : Bool) (d : Option Nat),
      (walkAux fs fuel p b d).Nodup := by
  intro fuel
  induction fuel with
  | zero => intro p b d; rw [walkAux]; simp
  | succ fuel ih =>
    intro p b d
    rw [walkAux]
    by_cases hc : (b && !(d == some 0)) = true
    · rw [if_pos hc, List.nodup_cons]
      constructor
      · intro hmem
        rw [List.mem_flatMap] at hmem
        obtain ⟨e, he, hq⟩ := hmem
        obtain ⟨n, hn⟩ := childEntries_path_eq he
        have h1 : e.path <+: p := mem_walkAux_isPrefix fs fuel e.path e.isDir (decDepth d) p hq
        have h2 := h1.length_le
        rw [hn, List.length_append] at h2
        exact absurd h2 (by simp)
      · rw [List.nodup_flatMap]
        constructor
        · intro e _
          exact ih e.path e.isDir (decDepth d)
        · have hchild : ((childEntries fs p).map (fun e => e.path)).Nodup :=
            hfs.sublist (List.Sublist.map _ (List.filter_sublist fs))
          have hchild2 : (childEntries fs p).Pairwise
              (fun e₁ e₂ => e₁.path ≠ e₂.path) := List.pairwise_map.mp hchild
          refine List.Pairwise.imp_of_mem ?_ hchild2
          intro e₁ e₂ h1 h2 hne
          simp only [Function.onFun]
          intro q hq1 hq2
          obtain ⟨n₁, hn₁⟩ := childEntries_path_eq h1
          obtain ⟨n₂, hn₂⟩ := childEntries_path_eq h2
          have hp1 : e₁.path <+: q :=
            mem_walkAux_isPrefix fs fuel e₁.path e₁.isDir (decDepth d) q hq1
          have hp2 : e₂.path <+: q :=
            mem_walkAux_isPrefix fs fuel e₂.path e₂.isDir (decDepth d) q hq2
          have hlen : e₁.path.length = e₂.path.length := by
            rw [hn₁, hn₂]; simp
          have h12 : e₁.path <+: e₂.path :=
            List.prefix_of_prefix_length_le hp1 hp2 (by omega)
          exact hne (h12.eq_of_length hlen)
    · rw [if_neg hc]
      simp

/-- The project paths a walker fold appends are drawn, in order and
without repetition of positions, from the processed path list. -/
theorem foldl_scan_paths_sublist (fs : List FsEntry) (config : ScanConfig) :
    ∀ (l : List FsPath) (st : ScanState),
      ∃ t, ((l.foldl (scan_step fs config) st).projects).map (fun q => q.path)
            = (st.projects.map (fun q => q.path)) ++ t ∧ t.Sublist l := by
  intro l
  induction l with
  | nil => intro st; exact ⟨[], by simp, List.nil_sublist []⟩
  | cons p l ih =>
    intro st
    rw [List.foldl_cons]
    obtain ⟨t, ht, hs⟩ := ih (scan_step fs config st p)
    rcases scan_step_eq fs config st p with heq | ⟨_, _, _, q₀, _, hq0path, _, heq⟩
    · rw [heq] at ht ⊢
      exact ⟨t, ht, hs.cons p⟩
    · rw [heq] at ht ⊢
      refine ⟨q₀.path :: t, ?_, ?_⟩
      · rw [ht]
        simp
      · rw [hq0path]
        exact hs.cons₂ p

/-- C2 (counterexample): the visited-repositories set is root-scoped,
so a scan whose `root_paths` repeat the same directory reports the same
repository twice — two records with equal `path`. -/
theorem scan_cross_root_duplicate_counterexample :
    (scanList nestedFs ⟨[["r", "a"], ["r", "a"]], none, false, true⟩).map
        (fun q => q.path) = [["r", "a"], ["r", "a"]] ∧
    ¬ ((scanList nestedFs
          ⟨[["r", "a"], ["r", "a"]], none, false, true⟩).map
        (fun q => q.path)).Nodup := by
  refine ⟨by decide, by decide⟩

/-- C2 (amended): within a single root's traversal no two reported
projects share a path (on a well-formed filesystem, i.e. one with no
duplicate entry paths); across the root paths of one scan call there is
no deduplication, so overlapping or repeated roots can duplicate
records. -/
theorem scan_root_paths_nodup (fs : List FsEntry) (config : ScanConfig)
    (root : FsPath) (hfs : (fs.map (fun e => e.path)).Nodup) :
    ((scan_root_list fs config root).map (fun q => q.path)).Nodup := by
  unfold scan_root_list scan_root
  by_cases h1 : pathExists fs root = true
  · rw [if_neg (by simp [h1])]
    by_cases h2 : pathIsDir fs root = true
    · rw [if_neg (by simp [h2])]
      obtain ⟨t, ht, hsub⟩ := foldl_scan_paths_sublist fs config
        (walkList fs root config.max_depth) ⟨[], []⟩
      have hwalk : (walkList fs root config.max_depth).Nodup :=
        walkAux_nodup hfs (walkFuel fs) root (pathIsDir fs root)
          config.max_depth
      have : (((walkList fs root config.max_depth).foldl
          (scan_step fs config) ⟨[], []⟩).projects).map (fun q => q.path)
          = t := by simpa using ht
      rw [this]
      exact hwalk.sublist hsub
    · rw [if_pos (by simpa using h2)]
      simp
  · rw [if_pos (by simpa using h1)]
    simp

/-- C2 witness: within-root uniqueness at the nested fixture (whose
filesystem has no duplicate paths). -/
theorem scan_root_paths_nodup_witness :
    ((scan_root_list nestedFs ⟨[["r"]], none, false, true⟩ ["r"]).map
        (fun q => q.path)).Nodup :=
  scan_root_paths_nodup nestedFs ⟨[["r"]], none, false, true⟩ ["r"]
    (by decide)

end GitScan
